import Mathlib

/-!
Shallow embedding of the keyword-based retrieval engine of the ilmify portal
(`portal/js/chatbot.js` and its refined variant, referred to here as V3):
text chunking, keyword extraction, scoring/ranking search, answer synthesis
and the remote semantic-search fallback, together with proofs of the spec's
claims about them.

JavaScript strings are modelled as `List Char`; the ASCII fragment of
`\s`, `toLowerCase` and `trim` is modelled, matching the behaviour of the
source on ASCII input.
-/

namespace Ilmify

/-- Strings are modelled as lists of characters. -/
abbrev Str := List Char

/-- Coerce a Lean string literal into the model's string type. -/
def str (s : String) : Str := s.data

/-- The ASCII whitespace characters matched by the JavaScript `\s` class. -/
def isWs (c : Char) : Bool :=
  c == ' ' || c == '\t' || c == '\n' || c == '\r' || c == '\x0b' || c == '\x0c'

/-- ASCII lowercasing of one character, as `String.prototype.toLowerCase`
does on ASCII input. -/
def lowerChar (c : Char) : Char :=
  if 65 ≤ c.toNat ∧ c.toNat ≤ 90 then Char.ofNat (c.toNat + 32) else c

/-- `text.toLowerCase()`. -/
def lower (s : Str) : Str := s.map lowerChar

/-- `replace(/[^a-z0-9\s]/g, ' ')` applied to one character (the input is
already lowercased when the source applies this). -/
def cleanChar (c : Char) : Char :=
  if (97 ≤ c.toNat ∧ c.toNat ≤ 122) ∨ (48 ≤ c.toNat ∧ c.toNat ≤ 57) ∨ isWs c = true
  then c else ' '

/-- Auxiliary loop for `splitRuns`: `acc` holds the current token reversed
and `inRun` records whether the previous character belonged to a separator
run (whose remaining characters are absorbed). -/
def splitRunsAux (p : Char → Bool) : Str → Str → Bool → List Str
  | [], acc, _ => [acc.reverse]
  | c :: cs, acc, inRun =>
      if p c then
        if inRun then splitRunsAux p cs acc true
        else acc.reverse :: splitRunsAux p cs [] true
      else splitRunsAux p cs (c :: acc) false

/-- `s.split(re)` where `re` matches one-or-more characters satisfying `p`:
the string is cut at every maximal run of such characters, and empty tokens
are kept at the edges, exactly as JavaScript `String.prototype.split` with a
`[...]+` regex behaves. -/
def splitRuns (p : Char → Bool) (s : Str) : List Str :=
  splitRunsAux p s [] false

/-- `needle` occurs in `hay` as a contiguous substring
(JavaScript `hay.includes(needle)`). -/
def containsSub (hay needle : Str) : Bool :=
  hay.tails.any (fun t => needle.isPrefixOf t)

/-- `s.trim()`: remove whitespace from both ends. -/
def trim (s : Str) : Str :=
  ((s.dropWhile isWs).reverse.dropWhile isWs).reverse

/-- Auxiliary loop for `collapseWs`: `inRun` records whether the previous
character was whitespace (its run is already represented by one space). -/
def collapseWsAux : Str → Bool → Str
  | [], _ => []
  | c :: cs, inRun =>
      if isWs c then
        if inRun then collapseWsAux cs true
        else ' ' :: collapseWsAux cs true
      else c :: collapseWsAux cs false

/-- `replace(/\s+/g, ' ')`: collapse every whitespace run to one space. -/
def collapseWs (s : Str) : Str := collapseWsAux s false

/-- The sentence separators of the base chunker: `/[.!?]+/`. -/
def isSentSep (c : Char) : Bool := c == '.' || c == '!' || c == '?'

/-- The sentence separators of the V3 variant: `/[.!?।]+/` (the Devanagari
danda is added to support non-Latin scripts). -/
def isSentSepV3 (c : Char) : Bool := isSentSep c || c == '।'

/-- Join a list of sentences with single spaces (used only in the statements
of the chunker claims, to name what a chunk is built from). -/
def joinSp : List Str → Str
  | [] => []
  | [s] => s
  | s :: s2 :: rest => s ++ ' ' :: joinSp (s2 :: rest)

/-- The content of a chunk assembled from the sentence segment `seg`. -/
def chunkOf (seg : List Str) : Str := trim (joinSp seg)

/-- One indexed passage: `{id, title, category, content, keywords}` (the
derived `id` plays no role in any claim and is omitted). -/
structure Chunk where
  title : Str
  category : Str
  content : Str
  keywords : List Str
deriving DecidableEq

/-- A chunk together with its query score: `{ ...item, score }`. -/
structure ScoredChunk extends Chunk where
  score : Nat
deriving DecidableEq

/-- Stable descending insertion by a numeric key: the element is placed
before the first element whose key is not larger.  Together with
`sortDescBy` this is the unique stable descending reordering, i.e. the
result of the JavaScript stable `Array.prototype.sort` with comparator
`(a, b) => f(b) - f(a)`. -/
def insertDescBy (f : α → Nat) (x : α) : List α → List α
  | [] => [x]
  | y :: ys => if f y ≤ f x then x :: y :: ys else y :: insertDescBy f x ys

/-- Stable sort by non-increasing key (`Array.prototype.sort` with
comparator `(a, b) => f(b) - f(a)`, which ECMAScript requires to be
stable). -/
def sortDescBy (f : α → Nat) : List α → List α
  | [] => []
  | x :: xs => insertDescBy f x (sortDescBy f xs)

/-- The chunker loop shared by both variants (`splitIntoChunks` in
`chatbot.js`, `splitText` in V3): greedily accumulate sentences, flushing
the buffer when appending the next sentence would exceed `size` and the
buffer is non-empty. -/
def splitLoop (size : Nat) : List Str → List Str → Str → List Str
  | [], chunks, current =>
      if trim current = [] then chunks else chunks ++ [trim current]
  | s :: rest, chunks, current =>
      if size < (current ++ s).length ∧ current ≠ [] then
        splitLoop size rest (chunks ++ [trim current]) s
      else
        splitLoop size rest chunks (current ++ ' ' :: s)

namespace Base

/-- The stop-word list of `chatbot.js` (`extractKeywords`). -/
def stopWords : List Str :=
  [str "the", str "a", str "an", str "and", str "or", str "but", str "in",
   str "on", str "at", str "to", str "for", str "of", str "with", str "by",
   str "is", str "are", str "was", str "were", str "be", str "been",
   str "have", str "has", str "had", str "do", str "does", str "did",
   str "will", str "would", str "could", str "should", str "this",
   str "that", str "these", str "those", str "it", str "its", str "as",
   str "from", str "can", str "may", str "which", str "who", str "what",
   str "when", str "where", str "how", str "all", str "each", str "every",
   str "both", str "few", str "more", str "most", str "other", str "some",
   str "such", str "no", str "not", str "only", str "same", str "than",
   str "too", str "very"]

/-- `extractKeywords` of `chatbot.js`: lowercase, replace every character
outside `[a-z0-9\s]` by a space, split on whitespace runs, keep tokens of
length `> 2` that are not stop-words. -/
def extractKeywords (text : Str) : List Str :=
  (splitRuns isWs ((lower text).map cleanChar)).filter
    (fun w => decide (2 < w.length) && !stopWords.contains w)

/-- `splitIntoChunks(text, chunkSize)` of `chatbot.js`. -/
def splitIntoChunks (text : Str) (chunkSize : Nat) : List Str :=
  splitLoop chunkSize (splitRuns isSentSep text) [] []

/-- The score of one chunk in `searchKnowledge` of `chatbot.js`, as a
function of the extracted query keywords and the lowercased query: per
keyword `+2` for an exact keyword-set member, `+1` for a content substring,
`+5` when the content contains the whole lowercased query (the source
evaluates this inside the keyword loop), plus `+3` per keyword occurring in
the title. -/
def scoreWith (queryLower : Str) (qks : List Str) (item : Chunk) : Nat :=
  let contentLower := lower item.content
  let titleLower := lower item.title
  (qks.map (fun kw =>
      (if item.keywords.contains kw then 2 else 0) +
      (if containsSub contentLower kw then 1 else 0) +
      (if containsSub contentLower queryLower then 5 else 0))).sum +
  (qks.map (fun kw => if containsSub titleLower kw then 3 else 0)).sum

/-- The score `searchKnowledge` of `chatbot.js` assigns to `item` for
`query`. -/
def score (query : Str) (item : Chunk) : Nat :=
  scoreWith (lower query) (extractKeywords query) item

/-- The scored knowledge base, in its original index order. -/
def scoredList (kb : List Chunk) (query : Str) : List ScoredChunk :=
  kb.map (fun item => ⟨item, score query item⟩)

/-- `searchKnowledge(query, topK)` of `chatbot.js` over knowledge base
`kb`: empty keyword extraction short-circuits to `[]`; otherwise score,
keep scores `> 0`, stable-sort descending, take `topK`. -/
def searchKnowledge (kb : List Chunk) (query : Str) (topK : Nat) :
    List ScoredChunk :=
  if (extractKeywords query).isEmpty then []
  else
    (sortDescBy (fun i => i.score)
      ((scoredList kb query).filter (fun i => decide (0 < i.score)))).take topK

end Base

namespace V3

/-- The extended stop-word list of the V3 variant. -/
def stopWords : List Str :=
  Base.stopWords ++
  [str "just", str "also", str "into", str "over", str "after",
   str "before", str "between", str "under", str "above", str "below",
   str "about", str "there", str "here"]

/-- `extractKeywords` of the V3 variant (same pipeline, larger stop list). -/
def extractKeywords (text : Str) : List Str :=
  (splitRuns isWs ((lower text).map cleanChar)).filter
    (fun w => decide (2 < w.length) && !stopWords.contains w)

/-- `splitText(text, size)` of the V3 variant. -/
def splitText (text : Str) (size : Nat) : List Str :=
  splitLoop size (splitRuns isSentSepV3 text) [] []

/-- The score of one chunk in the V3 `searchKnowledge`, as a function of
the extracted query keywords and the lowercased query: per keyword `+3`
for an exact keyword-set member, `+2` for a content substring, `+4` for a
title substring; then `+10` once when the content contains the whole
lowercased query. -/
def scoreWith (queryLower : Str) (qks : List Str) (item : Chunk) : Nat :=
  let contentLower := lower item.content
  let titleLower := lower item.title
  (qks.map (fun kw =>
      (if item.keywords.contains kw then 3 else 0) +
      (if containsSub contentLower kw then 2 else 0) +
      (if containsSub titleLower kw then 4 else 0))).sum +
  (if containsSub contentLower queryLower then 10 else 0)

/-- The score the V3 `searchKnowledge` assigns to `item` for `query`. -/
def score (query : Str) (item : Chunk) : Nat :=
  scoreWith (lower query) (extractKeywords query) item

/-- The scored knowledge base, in its original index order. -/
def scoredList (kb : List Chunk) (query : Str) : List ScoredChunk :=
  kb.map (fun item => ⟨item, score query item⟩)

/-- `searchKnowledge(query, topK)` of the V3 variant over knowledge base
`kb`: empty keyword extraction short-circuits to `[]`; otherwise score,
keep scores `> 2`, stable-sort descending, take `topK`. -/
def searchKnowledge (kb : List Chunk) (query : Str) (topK : Nat) :
    List ScoredChunk :=
  if (extractKeywords query).isEmpty then []
  else
    (sortDescBy (fun i => i.score)
      ((scoredList kb query).filter (fun i => decide (2 < i.score)))).take topK

end V3

/-- The `Answer` record returned by the V3 `generateAnswer`:
`{text, source, category, score}`. -/
structure Answer where
  text : Str
  source : Str
  category : Str
  score : Nat
deriving DecidableEq

/-- Appending to a JavaScript `Set` (insertion order, first occurrence
wins), realized on lists. -/
def insertUniq (l : List Str) (x : Str) : List Str :=
  if l.contains x then l else l ++ [x]

/-- The separator of `join('. ')`. -/
def dotSp : Str := str ". "

/-- The separator of `join(', ')`. -/
def commaSp : Str := str ", "

/-- `answer.endsWith('.') || answer.endsWith('!') || answer.endsWith('?')`. -/
def endsSentPunct (s : Str) : Bool :=
  s.getLast? == some '.' || s.getLast? == some '!' || s.getLast? == some '?'

namespace V3

/-- The contexts `generateAnswer` draws content from: the first three,
restricted to those with truthy (non-empty) `content`. -/
def usedContexts (contexts : List ScoredChunk) : List ScoredChunk :=
  (contexts.take 3).filter (fun ctx => !ctx.content.isEmpty)

/-- `combinedContent`: `' ' + ctx.content` accumulated over the used
contexts. -/
def combinedContent (contexts : List ScoredChunk) : Str :=
  (usedContexts contexts).foldl (fun acc ctx => acc ++ ' ' :: ctx.content) []

/-- The `sources` set accumulated over the used contexts, in insertion
order. -/
def sources (contexts : List ScoredChunk) : List Str :=
  (usedContexts contexts).foldl (fun acc ctx => insertUniq acc ctx.title) []

/-- The candidate sentences of `generateAnswer`: split the combined content
on `/[.!?।]+/`, trim, keep length `> 20`. -/
def sentences (contexts : List ScoredChunk) : List Str :=
  ((splitRuns isSentSepV3 (combinedContent contexts)).map trim).filter
    (fun s => decide (20 < s.length))

/-- The relevance score `generateAnswer` assigns to one candidate sentence:
`+2` per query keyword contained, `+10` for the whole query phrase, `+3`
for a definition-style question answered by a copula sentence, and `+1`
more when the sentence already scores and exceeds 50 characters. -/
def sentenceScore (queryLower : Str) (kws : List Str) (s : Str) : Nat :=
  let lowerS := lower s
  let base :=
    (kws.map (fun kw => if containsSub lowerS kw then 2 else 0)).sum +
    (if containsSub lowerS queryLower then 10 else 0) +
    (if (containsSub queryLower (str "what is") ||
         containsSub queryLower (str "definition") ||
         containsSub queryLower (str "meaning") ||
         containsSub queryLower (str "explain")) &&
        (containsSub lowerS (str "is ") || containsSub lowerS (str "are ") ||
         containsSub lowerS (str "means ") ||
         containsSub lowerS (str "refers to") ||
         containsSub lowerS (str "defined as")) then 3 else 0)
  base + (if 0 < base ∧ 50 < s.length then 1 else 0)

/-- The `relevant` sentence selection of `generateAnswer`: score every
candidate sentence, keep scores `> 1`, stable-sort descending, take 4. -/
def relevant (query : Str) (contexts : List ScoredChunk) : List Str :=
  ((sortDescBy (fun p => p.2)
      (((sentences contexts).map
          (fun s => (s, sentenceScore (lower query) (extractKeywords query) s))).filter
        (fun p => decide (1 < p.2)))).take 4).map (fun p => p.1)

/-- The raw answer string of `generateAnswer` before clean-up: the selected
relevant sentences joined with `'. '`, falling back to the first three
candidate sentences, empty when there is no candidate sentence at all. -/
def answerRaw (query : Str) (contexts : List ScoredChunk) : Str :=
  if (relevant query contexts).isEmpty then
    (if (sentences contexts).isEmpty then []
     else trim (List.intercalate dotSp ((sentences contexts).take 3)))
  else trim (List.intercalate dotSp (relevant query contexts))

/-- The clean-up applied to a non-empty raw answer: collapse whitespace,
trim, and guarantee terminal punctuation. -/
def finalizeText (s : Str) : Str :=
  if endsSentPunct (trim (collapseWs s)) then trim (collapseWs s)
  else trim (collapseWs s) ++ ['.']

/-- The `Answer` record `generateAnswer` assembles in its success case:
the cleaned-up answer text, the comma-joined source titles, and the top
chunk's category and score. -/
@[reducible] def answerOf (query : Str) (contexts : List ScoredChunk)
    (c0 : ScoredChunk) : Answer :=
  ⟨finalizeText (answerRaw query contexts),
   List.intercalate commaSp (sources contexts), c0.category, c0.score⟩

/-- `generateAnswer(query, contexts)` of the V3 variant. -/
def generateAnswer (query : Str) (contexts : List ScoredChunk) :
    Option Answer :=
  match contexts with
  | [] => none
  | c0 :: rest =>
      if answerRaw query (c0 :: rest) = [] then none
      else some (answerOf query (c0 :: rest) c0)

end V3

/-- The JSON body of a `/api/search` response: `{success, results}`, with
`results` possibly absent (a malformed body). -/
structure RemoteData where
  success : Bool
  results : Option (List ScoredChunk)

/-- One `fetch('/api/search')` interaction, injected as an oracle: either
the fetch (or the body parse) throws, or it yields a response carrying the
`ok` flag and the parse attempt of its JSON body. -/
inductive FetchOutcome where
  | thrown
  | resp (ok : Bool) (body : Except Unit RemoteData)

namespace V3

/-- `semanticSearch(query, topK)` of the V3 variant with the network
interaction injected: the remote results are returned exactly when the
response is ok, parses, has truthy `success` and a non-empty `results`
array; in every other case (throw, non-ok status, parse failure, missing
or empty results, falsy `success`) the local `searchKnowledge` result is
returned. -/
def semanticSearch (outcome : FetchOutcome) (kb : List Chunk) (query : Str)
    (topK : Nat) : List ScoredChunk :=
  match outcome with
  | .thrown => searchKnowledge kb query topK
  | .resp ok body =>
      if ok then
        match body with
        | .error _ => searchKnowledge kb query topK
        | .ok data =>
            match data.results with
            | none => searchKnowledge kb query topK
            | some rs =>
                if data.success && decide (0 < rs.length) then rs
                else searchKnowledge kb query topK
      else searchKnowledge kb query topK

end V3

/-! ### Concrete values used in counterexamples and witnesses -/

/-- A chunk as the base index builder produces it from the text
"the water cycle". -/
def waterChunk : Chunk :=
  ⟨str "Science Textbook", str "textbook", str "the water cycle",
   Base.extractKeywords (str "the water cycle")⟩

/-- A chunk as the V3 index builder produces it from the text
"the water cycle is important". -/
def waterChunkV3 : Chunk :=
  ⟨str "Science Textbook", str "textbook", str "the water cycle is important",
   V3.extractKeywords (str "the water cycle is important")⟩

/-- A chunk whose content repeats the word "water". -/
def monoChunk : Chunk :=
  ⟨str "science", str "textbook", str "water is wet and water is life",
   V3.extractKeywords (str "water is wet and water is life")⟩

/-- A ranked chunk whose content is too short to yield any sentence longer
than 20 characters. -/
def shortChunk : ScoredChunk :=
  ⟨⟨str "Guide", str "health-guide", str "short", [str "short"]⟩, 7⟩

/-- A remote search result, as the semantic-search service would return. -/
def remoteHit : ScoredChunk :=
  ⟨⟨str "Remote Title", str "video", str "remote content", []⟩, 42⟩

/-- A ranked chunk built from the water-cycle sample text (in the form the
chunker emits it: sentence separators stripped, sentences space-joined). -/
def ctxWater : ScoredChunk :=
  ⟨⟨str "Science", str "textbook",
    str "Water is essential for life  Plants need water to grow  The water cycle includes evaporation and condensation",
    V3.extractKeywords (str "water")⟩, 20⟩

/-- The answer `generateAnswer` produces for the query "water cycle" over
`ctxWater`. -/
def answerW : Answer :=
  ⟨str "Water is essential for life Plants need water to grow The water cycle includes evaporation and condensation.",
   str "Science", str "textbook", 20⟩

/-! ### Properties of the stable descending sort -/

theorem insertDescBy_cons (f : α → Nat) (x y : α) (ys : List α) :
    insertDescBy f x (y :: ys) =
      if f y ≤ f x then x :: y :: ys else y :: insertDescBy f x ys := rfl

theorem insertDescBy_perm (f : α → Nat) (x : α) (l : List α) :
    List.Perm (insertDescBy f x l) (x :: l) := by
  induction l with
  | nil => simp [insertDescBy]
  | cons y ys ih =>
      by_cases h : f y ≤ f x
      · rw [insertDescBy_cons, if_pos h]
      · rw [insertDescBy_cons, if_neg h]
        exact (ih.cons y).trans (List.Perm.swap x y ys)

theorem sortDescBy_perm (f : α → Nat) (l : List α) :
    List.Perm (sortDescBy f l) l := by
  induction l with
  | nil => simp [sortDescBy]
  | cons x xs ih => exact (insertDescBy_perm f x (sortDescBy f xs)).trans (ih.cons x)

theorem insertDescBy_pairwise (f : α → Nat) (x : α) (l : List α)
    (h : l.Pairwise (fun a b => f b ≤ f a)) :
    (insertDescBy f x l).Pairwise (fun a b => f b ≤ f a) := by
  induction l with
  | nil => simp [insertDescBy]
  | cons y ys ih =>
      rcases List.pairwise_cons.mp h with ⟨hy, hys⟩
      by_cases hxy : f y ≤ f x
      · rw [insertDescBy_cons, if_pos hxy]
        refine List.pairwise_cons.mpr ⟨?_, h⟩
        intro z hz
        rcases List.mem_cons.mp hz with rfl | hz
        · exact hxy
        · exact le_trans (hy z hz) hxy
      · rw [insertDescBy_cons, if_neg hxy]
        refine List.pairwise_cons.mpr ⟨?_, ih hys⟩
        intro z hz
        rcases List.mem_cons.mp ((insertDescBy_perm f x ys).mem_iff.mp hz) with h1 | h2
        · subst h1
          exact le_of_lt (lt_of_not_le hxy)
        · exact hy z h2

theorem sortDescBy_pairwise (f : α → Nat) (l : List α) :
    (sortDescBy f l).Pairwise (fun a b => f b ≤ f a) := by
  induction l with
  | nil => simp [sortDescBy]
  | cons x xs ih => exact insertDescBy_pairwise f x (sortDescBy f xs) ih

/-- Inserting `x` keeps every element whose key equals `n` in place, with
`x` appended after the earlier-inserted equal-key elements only when its own
key is `n`: the heart of stability. -/
theorem filter_insertDescBy (f : α → Nat) (x : α) (l : List α) (n : Nat) :
    (insertDescBy f x l).filter (fun y => decide (f y = n)) =
      if f x = n then x :: l.filter (fun y => decide (f y = n))
      else l.filter (fun y => decide (f y = n)) := by
  induction l with
  | nil =>
      rw [show insertDescBy f x [] = [x] from rfl]
      by_cases hx : f x = n <;> simp [hx]
  | cons y ys ih =>
      by_cases hxy : f y ≤ f x
      · rw [insertDescBy_cons, if_pos hxy]
        by_cases hx : f x = n <;> simp [List.filter_cons, hx]
      · rw [insertDescBy_cons, if_neg hxy]
        have hyn : f x < f y := lt_of_not_le hxy
        by_cases hx : f x = n
        · have hy : ¬ (f y = n) := by omega
          simp [List.filter_cons, hy, ih, hx]
        · by_cases hy : f y = n <;> simp [List.filter_cons, hy, ih, hx]

/-- Stability of the sort: the elements with any fixed key keep their
original relative order. -/
theorem filter_sortDescBy (f : α → Nat) (l : List α) (n : Nat) :
    (sortDescBy f l).filter (fun y => decide (f y = n)) =
      l.filter (fun y => decide (f y = n)) := by
  induction l with
  | nil => simp [sortDescBy]
  | cons x xs ih =>
      by_cases hx : f x = n <;>
        simp [sortDescBy, filter_insertDescBy, hx, List.filter, ih]

/-! ### Properties of trimming and joining -/

theorem trim_cons_space (s : Str) : trim (' ' :: s) = trim s := rfl

theorem trim_length_le (s : Str) : (trim s).length ≤ s.length := by
  rw [trim, List.length_reverse]
  calc ((s.dropWhile isWs).reverse.dropWhile isWs).length
      ≤ (s.dropWhile isWs).reverse.length :=
        (List.dropWhile_sublist isWs).length_le
    _ = (s.dropWhile isWs).length := List.length_reverse _
    _ ≤ s.length := (List.dropWhile_sublist isWs).length_le

theorem all_ws_of_trim_eq_nil {s : Str} (h : trim s = []) :
    ∀ c ∈ s, isWs c = true := by
  rw [trim, List.reverse_eq_nil_iff, List.dropWhile_eq_nil_iff] at h
  intro c hc
  rw [← List.takeWhile_append_dropWhile (p := isWs) (l := s),
    List.mem_append] at hc
  rcases hc with hc | hc
  · exact List.mem_takeWhile_imp hc
  · exact h c (List.mem_reverse.mpr hc)

theorem trim_ne_nil_of_mem_nonws {s : Str} {c : Char} (hc : c ∈ s)
    (hw : isWs c = false) : trim s ≠ [] := by
  intro h
  rw [all_ws_of_trim_eq_nil h c hc] at hw
  exact Bool.noConfusion hw

theorem exists_nonws_of_trim_ne_nil {s : Str} (h : trim s ≠ []) :
    ∃ c ∈ trim s, isWs c = false := by
  rw [trim] at h ⊢
  rw [ne_eq, List.reverse_eq_nil_iff] at h
  refine ⟨((s.dropWhile isWs).reverse.dropWhile isWs).head h, ?_, ?_⟩
  · exact List.mem_reverse.mpr (List.head_mem h)
  · exact Bool.not_eq_true _ ▸ List.head_dropWhile_not isWs _ h

theorem joinSp_append_single (pend : List Str) (s : Str) (h : pend ≠ []) :
    joinSp (pend ++ [s]) = joinSp pend ++ ' ' :: s := by
  induction pend with
  | nil => exact absurd rfl h
  | cons x xs ih =>
      cases xs with
      | nil => rfl
      | cons y ys =>
          have h2 := ih (List.cons_ne_nil y ys)
          show x ++ ' ' :: joinSp ((y :: ys) ++ [s]) =
            (x ++ ' ' :: joinSp (y :: ys)) ++ ' ' :: s
          rw [h2, List.append_assoc, List.cons_append]

/-- `join('. ')` (or any separator) starts with its first piece. -/
theorem intercalate_cons_eq_append (sep : Str) (s : Str) (rest : List Str) :
    ∃ z, List.intercalate sep (s :: rest) = s ++ z := by
  cases rest with
  | nil => exact ⟨[], by simp [List.intercalate]⟩
  | cons t ts =>
      refine ⟨sep ++ List.intercalate sep (t :: ts), ?_⟩
      rw [List.intercalate, List.intercalate,
        show List.intersperse sep (s :: t :: ts) =
          s :: sep :: List.intersperse sep (t :: ts) from rfl,
        List.flatten_cons, List.flatten_cons]

/-- Filtering a prefix yields a prefix of the filtered list. -/
theorem filter_take_pref (l : List α) (k : Nat) (p : α → Bool) :
    (l.take k).filter p <+: l.filter p :=
  ⟨(l.drop k).filter p, by rw [← List.filter_append, List.take_append_drop]⟩

/-- The common shape of both `searchKnowledge` variants after keyword
extraction: filter by a score floor, stable-sort descending, truncate.
The result has at most `k` elements, is sorted by non-increasing key, all
kept elements beat the floor, and elements of equal key appear as a prefix
of the corresponding elements of the pre-sort list, in the same order. -/
theorem take_sort_filter_spec (f : α → Nat) (floor k : Nat) (l : List α) :
    ((sortDescBy f (l.filter (fun i => decide (floor < f i)))).take k).length ≤ k ∧
    ((sortDescBy f (l.filter (fun i => decide (floor < f i)))).take k).Pairwise
      (fun a b => f b ≤ f a) ∧
    (∀ x ∈ (sortDescBy f (l.filter (fun i => decide (floor < f i)))).take k,
      floor < f x) ∧
    (∀ n, ((sortDescBy f (l.filter (fun i => decide (floor < f i)))).take k).filter
        (fun y => decide (f y = n)) <+:
      (l.filter (fun i => decide (floor < f i))).filter (fun y => decide (f y = n))) := by
  refine ⟨List.length_take_le k _, ?_, ?_, ?_⟩
  · exact (sortDescBy_pairwise f _).sublist (List.take_sublist k _)
  · intro x hx
    have hx2 : x ∈ sortDescBy f (l.filter (fun i => decide (floor < f i))) :=
      List.take_subset k _ hx
    have hx3 : x ∈ l.filter (fun i => decide (floor < f i)) :=
      (sortDescBy_perm f _).mem_iff.mp hx2
    simpa using (List.of_mem_filter hx3)
  · intro n
    have h1 := filter_take_pref (sortDescBy f (l.filter (fun i => decide (floor < f i))))
      k (fun y => decide (f y = n))
    rwa [filter_sortDescBy] at h1

/-! ### Support lemmas for the answer synthesizer -/

theorem generateAnswer_cons (q : Str) (c0 : ScoredChunk)
    (tl : List ScoredChunk) :
    V3.generateAnswer q (c0 :: tl) =
      if V3.answerRaw q (c0 :: tl) = [] then none
      else some (V3.answerOf q (c0 :: tl) c0) := rfl

theorem answerOf_text (q : Str) (ctxs : List ScoredChunk)
    (c0 : ScoredChunk) :
    (V3.answerOf q ctxs c0).text = V3.finalizeText (V3.answerRaw q ctxs) := by
  with_reducible rfl

theorem finalizeText_ne_nil (s : Str) : V3.finalizeText s ≠ [] := by
  rw [V3.finalizeText]
  by_cases h : endsSentPunct (trim (collapseWs s)) = true
  · rw [if_pos h]
    intro hnil
    rw [hnil] at h
    exact absurd h (by decide)
  · rw [if_neg h]
    simp

theorem relevant_mem_sentences (q : Str) (ctxs : List ScoredChunk) :
    ∀ s ∈ V3.relevant q ctxs, s ∈ V3.sentences ctxs := by
  intro s hs
  rw [V3.relevant] at hs
  rcases List.mem_map.mp hs with ⟨p, hp, hps⟩
  have hp2 := List.take_subset 4 _ hp
  have hp3 := (sortDescBy_perm (fun p : Str × Nat => p.2) _).mem_iff.mp hp2
  have hp4 := List.mem_of_mem_filter hp3
  rcases List.mem_map.mp hp4 with ⟨s0, hs0, hs0p⟩
  rw [← hps, ← hs0p]
  exact hs0

theorem sentences_mem_spec (ctxs : List ScoredChunk) :
    ∀ s ∈ V3.sentences ctxs, 20 < s.length ∧ ∃ y, s = trim y := by
  intro s hs
  rw [V3.sentences] at hs
  have h1 := List.of_mem_filter hs
  have h2 := List.mem_of_mem_filter hs
  rcases List.mem_map.mp h2 with ⟨y, _, hy⟩
  exact ⟨by simpa using h1, y, hy.symm⟩

theorem trim_intercalate_ne_nil (sep s1 : Str) (rest : List Str)
    (h1 : ∃ y, s1 = trim y) (h2 : s1 ≠ []) :
    trim (List.intercalate sep (s1 :: rest)) ≠ [] := by
  obtain ⟨y, rfl⟩ := h1
  obtain ⟨c, hc, hw⟩ := exists_nonws_of_trim_ne_nil h2
  obtain ⟨z, hz⟩ := intercalate_cons_eq_append sep (trim y) rest
  rw [hz]
  exact trim_ne_nil_of_mem_nonws (List.mem_append.mpr (Or.inl hc)) hw

theorem answerRaw_eq_nil_iff (q : Str) (ctxs : List ScoredChunk) :
    V3.answerRaw q ctxs = [] ↔ V3.sentences ctxs = [] := by
  rw [V3.answerRaw]
  by_cases hrel : (V3.relevant q ctxs).isEmpty = true
  · rw [if_pos hrel]
    by_cases hs : (V3.sentences ctxs).isEmpty = true
    · rw [if_pos hs]
      rw [List.isEmpty_iff] at hs
      simp [hs]
    · rw [if_neg hs]
      rw [List.isEmpty_iff] at hs
      constructor
      · intro h
        exfalso
        cases hsen : V3.sentences ctxs with
        | nil => exact hs hsen
        | cons s1 srest =>
            have hmem : s1 ∈ V3.sentences ctxs := by
              rw [hsen]
              exact List.mem_cons_self s1 srest
            have hspec := sentences_mem_spec ctxs s1 hmem
            have hne : s1 ≠ [] := by
              intro hn
              rw [hn] at hspec
              simp at hspec
            have hnn : trim (List.intercalate dotSp
                ((V3.sentences ctxs).take 3)) ≠ [] := by
              rw [hsen, List.take_succ_cons]
              exact trim_intercalate_ne_nil dotSp s1 (srest.take 2)
                hspec.2 hne
            exact hnn h
      · intro h
        exact absurd h hs
  · rw [if_neg hrel]
    rw [List.isEmpty_iff] at hrel
    constructor
    · intro h
      exfalso
      cases hrelc : V3.relevant q ctxs with
      | nil => exact hrel hrelc
      | cons r1 rrest =>
          have hmem : r1 ∈ V3.sentences ctxs :=
            relevant_mem_sentences q ctxs r1
              (by rw [hrelc]; exact List.mem_cons_self r1 rrest)
          have hspec := sentences_mem_spec ctxs r1 hmem
          have hne : r1 ≠ [] := by
            intro hn
            rw [hn] at hspec
            simp at hspec
          have hnn : trim (List.intercalate dotSp
              (V3.relevant q ctxs)) ≠ [] := by
            rw [hrelc]
            exact trim_intercalate_ne_nil dotSp r1 rrest hspec.2 hne
          exact hnn h
    · intro h
      exfalso
      cases hrelc : V3.relevant q ctxs with
      | nil => exact hrel hrelc
      | cons r1 rrest =>
          have hmem : r1 ∈ V3.sentences ctxs :=
            relevant_mem_sentences q ctxs r1
              (by rw [hrelc]; exact List.mem_cons_self r1 rrest)
          rw [h] at hmem
          exact List.not_mem_nil r1 hmem

/-! ### Support lemmas for score monotonicity -/

theorem sublist_map_sum_le (f : α → Nat) {l1 l2 : List α}
    (h : List.Sublist l1 l2) :
    (l1.map f).sum ≤ (l2.map f).sum :=
  List.Sublist.sum_le_sum (h.map f) (fun a _ => Nat.zero_le a)

/-! ### The chunker loop: sentence segmentation and size bound -/

theorem splitLoop_nil (size : Nat) (chunks : List Str) (current : Str) :
    splitLoop size [] chunks current =
      if trim current = [] then chunks else chunks ++ [trim current] := rfl

theorem splitLoop_cons (size : Nat) (s : Str) (rest chunks : List Str)
    (current : Str) :
    splitLoop size (s :: rest) chunks current =
      if size < (current ++ s).length ∧ current ≠ [] then
        splitLoop size rest (chunks ++ [trim current]) s
      else splitLoop size rest chunks (current ++ ' ' :: s) := rfl

/-- The chunker loop partitions the yet-unprocessed sentences: the pending
buffer `current` always spells out a sentence segment `pend` (possibly with
one leading space), and the produced chunks are exactly the trimmed
space-joins of consecutive segments covering the sentence list, up to a
trailing remainder whose join trims to nothing (the buffer the final flush
drops). -/
theorem splitLoop_segments (size : Nat) :
    ∀ (sents chunks : List Str) (current : Str) (pend : List Str),
      ((current = [] ∧ pend = []) ∨
        (pend ≠ [] ∧ (current = joinSp pend ∨ current = ' ' :: joinSp pend))) →
      ∃ (segs : List (List Str)) (rest : List Str),
        pend ++ sents = segs.flatten ++ rest ∧
        splitLoop size sents chunks current = chunks ++ segs.map chunkOf ∧
        trim (joinSp rest) = [] := by
  intro sents
  induction sents with
  | nil =>
      intro chunks current pend hinv
      have htr : trim current = trim (joinSp pend) := by
        rcases hinv with ⟨hc, hp⟩ | ⟨_, hc | hc⟩
        · rw [hc, hp]; rfl
        · rw [hc]
        · rw [hc, trim_cons_space]
      by_cases h : trim current = []
      · refine ⟨[], pend, by simp, ?_, htr ▸ h⟩
        rw [splitLoop_nil, if_pos h, List.map_nil, List.append_nil]
      · refine ⟨[pend], [], by simp, ?_, rfl⟩
        rw [splitLoop_nil, if_neg h, List.map_singleton, chunkOf, ← htr]
  | cons s rest' ih =>
      intro chunks current pend hinv
      by_cases hcond : size < (current ++ s).length ∧ current ≠ []
      · have hpend : pend ≠ [] := by
          rcases hinv with ⟨h1, _⟩ | ⟨h1, _⟩
          · exact absurd h1 hcond.2
          · exact h1
        have htr : trim current = trim (joinSp pend) := by
          rcases hinv with ⟨h1, _⟩ | ⟨_, h1 | h1⟩
          · exact absurd h1 hcond.2
          · rw [h1]
          · rw [h1, trim_cons_space]
        obtain ⟨segs, rest0, h1, h2, h3⟩ :=
          ih (chunks ++ [trim current]) s [s]
            (Or.inr ⟨List.cons_ne_nil s [], Or.inl rfl⟩)
        refine ⟨pend :: segs, rest0, ?_, ?_, h3⟩
        · rw [List.flatten_cons, List.append_assoc, ← h1]
          rfl
        · rw [splitLoop_cons, if_pos hcond, h2, List.map_cons, chunkOf,
            ← htr, List.append_assoc]
          rfl
      · have hinv' : ((current ++ ' ' :: s = [] ∧ pend ++ [s] = []) ∨
            ((pend ++ [s]) ≠ [] ∧
              (current ++ ' ' :: s = joinSp (pend ++ [s]) ∨
               current ++ ' ' :: s = ' ' :: joinSp (pend ++ [s])))) := by
          rcases hinv with ⟨h1, h2⟩ | ⟨h1, h2 | h2⟩
          · subst h1; subst h2
            exact Or.inr ⟨by simp, Or.inr rfl⟩
          · refine Or.inr ⟨by simp, Or.inl ?_⟩
            rw [h2, joinSp_append_single _ _ h1]
          · refine Or.inr ⟨by simp, Or.inr ?_⟩
            rw [h2, joinSp_append_single _ _ h1]
            rfl
        obtain ⟨segs, rest0, h1, h2, h3⟩ :=
          ih chunks (current ++ ' ' :: s) (pend ++ [s]) hinv'
        refine ⟨segs, rest0, ?_, ?_, h3⟩
        · rw [← h1, List.append_assoc]
          rfl
        · rw [splitLoop_cons, if_neg hcond, h2]

/-- Every chunk the loop produces is within one character of the size bound
or is the trim of a single sentence: the pending buffer is empty, one
(possibly space-prefixed) sentence, or a buffer that passed the size
check (which omits the joining space, hence the `+ 1`). -/
theorem splitLoop_size_bound (size : Nat) (all : List Str) :
    ∀ (sents chunks : List Str) (current : Str),
      (∀ s ∈ sents, s ∈ all) →
      (current = [] ∨ (∃ s ∈ all, current = s ∨ current = ' ' :: s) ∨
        current.length ≤ size + 1) →
      (∀ c ∈ chunks, c.length ≤ size + 1 ∨ c ∈ all.map trim) →
      ∀ c ∈ splitLoop size sents chunks current,
        c.length ≤ size + 1 ∨ c ∈ all.map trim := by
  intro sents
  induction sents with
  | nil =>
      intro chunks current _ hcur hch c hc
      rw [splitLoop_nil] at hc
      by_cases h : trim current = []
      · rw [if_pos h] at hc
        exact hch c hc
      · rw [if_neg h] at hc
        rcases List.mem_append.mp hc with hc | hc
        · exact hch c hc
        · rw [List.mem_singleton.mp hc]
          rcases hcur with h1 | ⟨s2, hs2, h2 | h2⟩ | h1
          · rw [h1] at h
            exact absurd rfl h
          · rw [h2]
            exact Or.inr (List.mem_map_of_mem trim hs2)
          · rw [h2, trim_cons_space]
            exact Or.inr (List.mem_map_of_mem trim hs2)
          · exact Or.inl (le_trans (trim_length_le current) h1)
  | cons s rest' ih =>
      intro chunks current hsub hcur hch c hc
      rw [splitLoop_cons] at hc
      by_cases hcond : size < (current ++ s).length ∧ current ≠ []
      · rw [if_pos hcond] at hc
        have hgood : (trim current).length ≤ size + 1 ∨
            trim current ∈ all.map trim := by
          rcases hcur with h1 | ⟨s2, hs2, h2 | h2⟩ | h1
          · exact absurd h1 hcond.2
          · rw [h2]
            exact Or.inr (List.mem_map_of_mem trim hs2)
          · rw [h2, trim_cons_space]
            exact Or.inr (List.mem_map_of_mem trim hs2)
          · exact Or.inl (le_trans (trim_length_le current) h1)
        refine ih (chunks ++ [trim current]) s
          (fun t ht => hsub t (List.mem_cons_of_mem s ht))
          (Or.inr (Or.inl ⟨s, hsub s (List.mem_cons_self s rest'), Or.inl rfl⟩))
          ?_ c hc
        intro d hd
        rcases List.mem_append.mp hd with hd | hd
        · exact hch d hd
        · rw [List.mem_singleton.mp hd]
          exact hgood
      · rw [if_neg hcond] at hc
        refine ih chunks (current ++ ' ' :: s)
          (fun t ht => hsub t (List.mem_cons_of_mem s ht)) ?_ hch c hc
        by_cases hcur0 : current = []
        · rw [hcur0]
          exact Or.inr (Or.inl
            ⟨s, hsub s (List.mem_cons_self s rest'), Or.inr rfl⟩)
        · have hlen : (current ++ s).length ≤ size := by
            rcases not_and_or.mp hcond with h | h
            · omega
            · exact absurd (not_not.mp h) hcur0
          refine Or.inr (Or.inr ?_)
          have e1 : (current ++ ' ' :: s).length =
              current.length + (s.length + 1) := by
            simp [List.length_append]
          have e2 : (current ++ s).length = current.length + s.length := by
            simp [List.length_append]
          omega

/-! ### The claims -/

/-- C1: in the base variant (`chatbot.js`) the `+5` exact-phrase test sits
inside the per-keyword loop, so the two-keyword query "water cycle" scores
the phrase-matching chunk 16 = 2·(2+1+5): the bonus is granted once per
extracted keyword, not once per chunk (once per chunk would give
2+1+2+1+5 = 11). The V3 variant applies its bonus outside the loop, once:
20 = 2·(3+2)+10. -/
theorem base_phrase_bonus_counted_per_keyword :
    Base.score (str "water cycle") waterChunk = 16 ∧
    (Base.extractKeywords (str "water cycle")).length = 2 ∧
    V3.score (str "water cycle") waterChunkV3 = 20 := by decide

/-- C2: for every index, query and `topK`, both `searchKnowledge` variants
return at most `topK` results, sorted by non-increasing score; every
returned score strictly exceeds the variant's floor (0 in the base
variant, 2 in V3); and ties are broken by original index order: the
returned chunks of any fixed score are an initial segment, in order, of
the above-floor scored index entries of that score. -/
theorem searchKnowledge_ranking_spec (kb : List Chunk) (q : Str) (k : Nat) :
    ((Base.searchKnowledge kb q k).length ≤ k ∧
     (Base.searchKnowledge kb q k).Pairwise (fun a b => b.score ≤ a.score) ∧
     (∀ x ∈ Base.searchKnowledge kb q k, 0 < x.score) ∧
     (∀ n, (Base.searchKnowledge kb q k).filter
          (fun y => decide (y.score = n)) <+:
        ((Base.scoredList kb q).filter (fun i => decide (0 < i.score))).filter
          (fun y => decide (y.score = n)))) ∧
    ((V3.searchKnowledge kb q k).length ≤ k ∧
     (V3.searchKnowledge kb q k).Pairwise (fun a b => b.score ≤ a.score) ∧
     (∀ x ∈ V3.searchKnowledge kb q k, 2 < x.score) ∧
     (∀ n, (V3.searchKnowledge kb q k).filter
          (fun y => decide (y.score = n)) <+:
        ((V3.scoredList kb q).filter (fun i => decide (2 < i.score))).filter
          (fun y => decide (y.score = n)))) := by
  constructor
  · rw [Base.searchKnowledge]
    by_cases h : (Base.extractKeywords q).isEmpty
    · rw [if_pos h]
      exact ⟨Nat.zero_le k, List.Pairwise.nil,
        fun x hx => absurd hx (List.not_mem_nil x),
        fun n => List.nil_prefix⟩
    · rw [if_neg h]
      exact take_sort_filter_spec (fun i => i.score) 0 k (Base.scoredList kb q)
  · rw [V3.searchKnowledge]
    by_cases h : (V3.extractKeywords q).isEmpty
    · rw [if_pos h]
      exact ⟨Nat.zero_le k, List.Pairwise.nil,
        fun x hx => absurd hx (List.not_mem_nil x),
        fun n => List.nil_prefix⟩
    · rw [if_neg h]
      exact take_sort_filter_spec (fun i => i.score) 2 k (V3.scoredList kb q)

/-- Witness for `searchKnowledge_ranking_spec` at a one-chunk index and the
query "water cycle". -/
theorem searchKnowledge_ranking_spec_witness :
    (Base.searchKnowledge [waterChunk] (str "water cycle") 2).length ≤ 2 ∧
    (⟨waterChunk, 16⟩ : ScoredChunk) ∈
      Base.searchKnowledge [waterChunk] (str "water cycle") 2 ∧
    0 < (⟨waterChunk, 16⟩ : ScoredChunk).score ∧
    (V3.searchKnowledge [waterChunkV3] (str "water cycle") 2).length ≤ 2 ∧
    (⟨waterChunkV3, 20⟩ : ScoredChunk) ∈
      V3.searchKnowledge [waterChunkV3] (str "water cycle") 2 ∧
    2 < (⟨waterChunkV3, 20⟩ : ScoredChunk).score := by
  refine ⟨(searchKnowledge_ranking_spec [waterChunk] (str "water cycle") 2).1.1,
    by decide,
    (searchKnowledge_ranking_spec [waterChunk] (str "water cycle") 2).1.2.2.1
      _ (by decide),
    (searchKnowledge_ranking_spec [waterChunkV3] (str "water cycle") 2).2.1,
    by decide,
    (searchKnowledge_ranking_spec [waterChunkV3] (str "water cycle") 2).2.2.2.1
      _ (by decide)⟩

/-- C3 counterexample: the keyword set of "water cycle" is a superset of
the keyword set of "water water water" (namely {water}), and the chunk
matches every keyword of the latter, yet its score drops from 15 to 5:
keyword extraction keeps duplicates and each occurrence scores again, so
set-superset queries can score lower. -/
theorem score_superset_monotonicity_counterexample :
    (∀ w ∈ V3.extractKeywords (str "water water water"),
        w ∈ V3.extractKeywords (str "water cycle")) ∧
    (∀ w ∈ V3.extractKeywords (str "water water water"),
        monoChunk.keywords.contains w = true ∧
          containsSub (lower monoChunk.content) w = true) ∧
    V3.score (str "water cycle") monoChunk <
      V3.score (str "water water water") monoChunk := by decide

/-- C3 (amended): scoring is monotone when the first query's extracted
keyword list occurs inside the second's as a sublist (so multiplicities do
not drop) and the exact-phrase match is preserved: then neither variant
scores the chunk lower under the second query. -/
theorem score_monotone_of_sublist (c : Chunk) (q1 q2 : Str)
    (hb : List.Sublist (Base.extractKeywords q1) (Base.extractKeywords q2))
    (hv : List.Sublist (V3.extractKeywords q1) (V3.extractKeywords q2))
    (hph : containsSub (lower c.content) (lower q1) = true →
        containsSub (lower c.content) (lower q2) = true) :
    Base.score q1 c ≤ Base.score q2 c ∧ V3.score q1 c ≤ V3.score q2 c := by
  constructor
  · rw [Base.score, Base.score, Base.scoreWith, Base.scoreWith]
    refine Nat.add_le_add ?_ (sublist_map_sum_le _ hb)
    trans ((Base.extractKeywords q1).map (fun kw =>
        (if c.keywords.contains kw then 2 else 0) +
        (if containsSub (lower c.content) kw then 1 else 0) +
        (if containsSub (lower c.content) (lower q2) then 5 else 0))).sum
    · refine List.sum_le_sum ?_
      intro kw _
      have hp12 : (if containsSub (lower c.content) (lower q1) then 5
            else 0 : Nat) ≤
          (if containsSub (lower c.content) (lower q2) then 5 else 0) := by
        cases hc1 : containsSub (lower c.content) (lower q1) with
        | false => simp [hc1]
        | true => simp [hc1, hph hc1]
      exact Nat.add_le_add_left hp12 _
    · exact sublist_map_sum_le _ hb
  · rw [V3.score, V3.score, V3.scoreWith, V3.scoreWith]
    refine Nat.add_le_add (sublist_map_sum_le _ hv) ?_
    cases hc1 : containsSub (lower c.content) (lower q1) with
    | false => simp [hc1]
    | true => simp [hc1, hph hc1]

/-- Witness for `score_monotone_of_sublist`: the query "water" against the
query "water cycle" on the water chunks. -/
theorem score_monotone_of_sublist_witness :
    List.Sublist (Base.extractKeywords (str "water"))
      (Base.extractKeywords (str "water cycle")) ∧
    List.Sublist (V3.extractKeywords (str "water"))
      (V3.extractKeywords (str "water cycle")) ∧
    Base.score (str "water") waterChunk ≤
      Base.score (str "water cycle") waterChunk ∧
    V3.score (str "water") waterChunkV3 ≤
      V3.score (str "water cycle") waterChunkV3 := by
  have hb : List.Sublist (Base.extractKeywords (str "water"))
      (Base.extractKeywords (str "water cycle")) := by decide
  have hv : List.Sublist (V3.extractKeywords (str "water"))
      (V3.extractKeywords (str "water cycle")) := by decide
  refine ⟨hb, hv, ?_, ?_⟩
  · exact (score_monotone_of_sublist waterChunk (str "water")
      (str "water cycle") hb hv (fun _ => by decide)).1
  · exact (score_monotone_of_sublist waterChunkV3 (str "water")
      (str "water cycle") hb hv (fun _ => by decide)).2

/-- C7: a query whose keyword extraction is empty (the empty query, pure
punctuation, or only stop-words and short tokens) makes both
`searchKnowledge` variants return the empty sequence, for every index and
`topK`. -/
theorem searchKnowledge_empty_keywords (kb : List Chunk) (q : Str) (k : Nat)
    (h1 : Base.extractKeywords q = []) (h2 : V3.extractKeywords q = []) :
    Base.searchKnowledge kb q k = [] ∧ V3.searchKnowledge kb q k = [] := by
  constructor
  · rw [Base.searchKnowledge, if_pos (by rw [h1]; rfl)]
  · rw [V3.searchKnowledge, if_pos (by rw [h2]; rfl)]

/-- Witness for `searchKnowledge_empty_keywords`: a query of punctuation,
stop-words and short tokens. -/
theorem searchKnowledge_empty_keywords_witness :
    Base.extractKeywords (str "?! what is the") = [] ∧
    V3.extractKeywords (str "?! what is the") = [] ∧
    Base.searchKnowledge [waterChunk] (str "?! what is the") 3 = [] ∧
    V3.searchKnowledge [waterChunk] (str "?! what is the") 3 = [] := by
  have h1 : Base.extractKeywords (str "?! what is the") = [] := by decide
  have h2 : V3.extractKeywords (str "?! what is the") = [] := by decide
  exact ⟨h1, h2,
    (searchKnowledge_empty_keywords [waterChunk] _ 3 h1 h2).1,
    (searchKnowledge_empty_keywords [waterChunk] _ 3 h1 h2).2⟩

/-- C8 counterexample: `extractKeywords` never deduplicates — a repeated
content word yields a repeated keyword, so the result is not a set. -/
theorem extractKeywords_duplicates_counterexample :
    Base.extractKeywords (str "water water") = [str "water", str "water"] ∧
    ¬ (Base.extractKeywords (str "water water")).Nodup ∧
    ¬ (V3.extractKeywords (str "water water")).Nodup := by decide

/-- C8 (amended): `extractKeywords` returns the list of lowercased
alphanumeric tokens of length above 2 that are not stop-words, in
occurrence order and possibly with duplicates; on empty input it returns
the empty list without failing. -/
theorem extractKeywords_tokens_spec :
    Base.extractKeywords [] = [] ∧ V3.extractKeywords [] = [] ∧
    (∀ t w, w ∈ Base.extractKeywords t →
        2 < w.length ∧ Base.stopWords.contains w = false) ∧
    (∀ t w, w ∈ V3.extractKeywords t →
        2 < w.length ∧ V3.stopWords.contains w = false) := by
  refine ⟨rfl, rfl, ?_, ?_⟩
  · intro t w hw
    have h := List.of_mem_filter hw
    simp only [Bool.and_eq_true, decide_eq_true_eq, Bool.not_eq_true'] at h
    exact h
  · intro t w hw
    have h := List.of_mem_filter hw
    simp only [Bool.and_eq_true, decide_eq_true_eq, Bool.not_eq_true'] at h
    exact h

/-- Witness for `extractKeywords_tokens_spec` on a concrete text and
keyword. -/
theorem extractKeywords_tokens_spec_witness :
    str "water" ∈ Base.extractKeywords (str "Water is good!") ∧
    (2 < (str "water").length ∧
      Base.stopWords.contains (str "water") = false) ∧
    str "water" ∈ V3.extractKeywords (str "Water is good!") ∧
    (2 < (str "water").length ∧
      V3.stopWords.contains (str "water") = false) :=
  ⟨by decide,
   extractKeywords_tokens_spec.2.2.1 (str "Water is good!") (str "water")
     (by decide),
   by decide,
   extractKeywords_tokens_spec.2.2.2 (str "Water is good!") (str "water")
     (by decide)⟩

/-- C10: the V3 exact-phrase bonus is controlled by the raw lowercased
query string, punctuation and stop-words included: two queries with
identical extracted keywords, of which only the first occurs verbatim in
the chunk content, differ in score by exactly the bonus of 10 — so a query
differing from matching content only by a trailing question mark loses the
bonus. -/
theorem phrase_bonus_raw_query (item : Chunk) (q1 q2 : Str)
    (hkw : V3.extractKeywords q1 = V3.extractKeywords q2)
    (h1 : containsSub (lower item.content) (lower q1) = true)
    (h2 : containsSub (lower item.content) (lower q2) = false) :
    V3.score q2 item + 10 = V3.score q1 item := by
  rw [V3.score, V3.score, ← hkw, V3.scoreWith, V3.scoreWith]
  simp [h1, h2]

/-- Witness for `phrase_bonus_raw_query`: the query "water cycle?" against
"water cycle" on the water chunk. -/
theorem phrase_bonus_raw_query_witness :
    V3.extractKeywords (str "water cycle") =
      V3.extractKeywords (str "water cycle?") ∧
    containsSub (lower waterChunkV3.content)
      (lower (str "water cycle")) = true ∧
    containsSub (lower waterChunkV3.content)
      (lower (str "water cycle?")) = false ∧
    V3.score (str "water cycle?") waterChunkV3 + 10 =
      V3.score (str "water cycle") waterChunkV3 :=
  ⟨by decide, by decide, by decide,
   phrase_bonus_raw_query waterChunkV3 (str "water cycle")
     (str "water cycle?") (by decide) (by decide) (by decide)⟩

/-- C4 counterexample: a non-empty ranked-chunk list whose combined
content yields no sentence longer than 20 characters makes the V3
`generateAnswer` return `none`, refuting "none iff the input sequence is
empty". -/
theorem generateAnswer_short_context_counterexample :
    V3.generateAnswer (str "what is this") [shortChunk] = none ∧
    ([shortChunk] : List ScoredChunk) ≠ [] := by
  exact ⟨by decide, by simp⟩

/-- C4 (amended): the V3 `generateAnswer` returns `none` exactly when the
ranked-chunk sequence is empty or the combined content of the used chunks
yields no sentence longer than 20 characters; whenever it returns an
answer, the answer text is non-empty (the fallback to the first sentences
guarantees an answer whenever some candidate sentence exists). -/
theorem generateAnswer_none_iff (q : Str) (ctxs : List ScoredChunk) :
    (V3.generateAnswer q ctxs = none ↔
      ctxs = [] ∨ V3.sentences ctxs = []) ∧
    (∀ a, V3.generateAnswer q ctxs = some a → a.text ≠ []) := by
  cases ctxs with
  | nil =>
      refine ⟨?_, ?_⟩
      · simp [V3.generateAnswer]
      · intro a ha
        simp [V3.generateAnswer] at ha
  | cons c0 tl =>
      constructor
      · rw [generateAnswer_cons]
        by_cases h : V3.answerRaw q (c0 :: tl) = []
        · rw [if_pos h]
          simp only [true_iff]
          exact Or.inr ((answerRaw_eq_nil_iff q (c0 :: tl)).mp h)
        · rw [if_neg h]
          constructor
          · intro hsome
            exact absurd hsome (by simp)
          · intro hrhs
            rcases hrhs with h1 | h1
            · exact absurd h1 (List.cons_ne_nil c0 tl)
            · exact absurd ((answerRaw_eq_nil_iff q (c0 :: tl)).mpr h1) h
      · intro a ha
        rw [generateAnswer_cons] at ha
        by_cases h : V3.answerRaw q (c0 :: tl) = []
        · rw [if_pos h] at ha
          exact absurd ha (by simp)
        · rw [if_neg h] at ha
          have h2 := Option.some.inj ha
          rw [← h2, answerOf_text]
          exact finalizeText_ne_nil (V3.answerRaw q (c0 :: tl))

/-- Witness for `generateAnswer_none_iff`: the water-cycle context yields
an answer with non-empty text. -/
theorem generateAnswer_none_iff_witness :
    V3.generateAnswer (str "water cycle") [ctxWater] = some answerW ∧
    answerW.text ≠ [] :=
  ⟨by decide,
   (generateAnswer_none_iff (str "water cycle") [ctxWater]).2 answerW
     (by decide)⟩

/-- C5 counterexample: the whitespace-only text " " splits into the
one-element sentence sequence [" "], but produces no chunk at all — the
whitespace-only sentence is dropped, so the concatenated chunks do not
reconstruct the sentence sequence. -/
theorem splitIntoChunks_drops_ws_sentence_counterexample :
    splitRuns isSentSep (str " ") = [str " "] ∧
    Base.splitIntoChunks (str " ") 1 = [] := by decide

/-- C5 (amended): for every text and chunk size, the sentence sequence
splits into consecutive segments, in order and without duplication, such
that the produced chunks are exactly the trimmed space-joins of the
segments — up to a trailing remainder of sentences whose join trims to
nothing (dropped by the final flush). Both chunker variants qualify. -/
theorem splitIntoChunks_partition (T : Str) (S : Nat) :
    (∃ (segs : List (List Str)) (rest : List Str),
        splitRuns isSentSep T = segs.flatten ++ rest ∧
        Base.splitIntoChunks T S = segs.map chunkOf ∧
        trim (joinSp rest) = []) ∧
    (∃ (segs : List (List Str)) (rest : List Str),
        splitRuns isSentSepV3 T = segs.flatten ++ rest ∧
        V3.splitText T S = segs.map chunkOf ∧
        trim (joinSp rest) = []) := by
  constructor
  · obtain ⟨segs, rest, h1, h2, h3⟩ :=
      splitLoop_segments S (splitRuns isSentSep T) [] [] []
        (Or.inl ⟨rfl, rfl⟩)
    exact ⟨segs, rest, by simpa using h1,
      by simpa [Base.splitIntoChunks] using h2, h3⟩
  · obtain ⟨segs, rest, h1, h2, h3⟩ :=
      splitLoop_segments S (splitRuns isSentSepV3 T) [] [] []
        (Or.inl ⟨rfl, rfl⟩)
    exact ⟨segs, rest, by simpa using h1,
      by simpa [V3.splitText] using h2, h3⟩

/-- C6 counterexample: with size 5, the text "aaaa.ab.cde" produces the
chunk "ab cde" of length 6 > 5 which is not (the trim of) any single
sentence: the size check ignores the joining space, so a multi-sentence
chunk can exceed the bound. -/
theorem splitIntoChunks_size_counterexample :
    Base.splitIntoChunks (str "aaaa.ab.cde") 5 =
      [str "aaaa", str "ab cde"] ∧
    5 < (str "ab cde").length ∧
    ¬ str "ab cde" ∈ (splitRuns isSentSep (str "aaaa.ab.cde")).map trim := by
  decide

/-- C6 (amended): every chunk either has content length at most S+1 (the
size check does not count the joining space) or is the trim of a single
sentence of the text; in particular no sentence is ever split across two
chunks (see the segment partition of the chunker). Both variants
qualify. -/
theorem splitIntoChunks_size_bound (T : Str) (S : Nat) :
    (∀ c ∈ Base.splitIntoChunks T S,
        c.length ≤ S + 1 ∨ c ∈ (splitRuns isSentSep T).map trim) ∧
    (∀ c ∈ V3.splitText T S,
        c.length ≤ S + 1 ∨ c ∈ (splitRuns isSentSepV3 T).map trim) := by
  constructor
  · intro c hc
    rw [Base.splitIntoChunks] at hc
    exact splitLoop_size_bound S (splitRuns isSentSep T)
      (splitRuns isSentSep T) [] [] (fun s hs => hs) (Or.inl rfl)
      (fun d hd => absurd hd (List.not_mem_nil d)) c hc
  · intro c hc
    rw [V3.splitText] at hc
    exact splitLoop_size_bound S (splitRuns isSentSepV3 T)
      (splitRuns isSentSepV3 T) [] [] (fun s hs => hs) (Or.inl rfl)
      (fun d hd => absurd hd (List.not_mem_nil d)) c hc

/-- Witness for `splitIntoChunks_size_bound` on a concrete text. -/
theorem splitIntoChunks_size_bound_witness :
    str "aaaa" ∈ Base.splitIntoChunks (str "aaaa.ab.cde") 5 ∧
    ((str "aaaa").length ≤ 5 + 1 ∨
      str "aaaa" ∈ (splitRuns isSentSep (str "aaaa.ab.cde")).map trim) :=
  ⟨by decide,
   (splitIntoChunks_size_bound (str "aaaa.ab.cde") 5).1 (str "aaaa")
     (by decide)⟩

/-- C9: `semanticSearch` returns the remote results exactly when the fetch
succeeds, the response is ok, its body parses, `success` is set and the
result list is non-empty; in every other outcome (network throw, non-ok
status, malformed body, missing, empty results or falsy `success`) it
returns exactly the local `searchKnowledge` result — no failure
propagates. -/
theorem semanticSearch_remote_or_fallback (outcome : FetchOutcome)
    (kb : List Chunk) (q : Str) (k : Nat) :
    (∀ d rs, outcome = FetchOutcome.resp true (Except.ok d) →
        d.results = some rs → d.success = true → rs ≠ [] →
        V3.semanticSearch outcome kb q k = rs) ∧
    ((∀ d rs, outcome = FetchOutcome.resp true (Except.ok d) →
        d.results = some rs → d.success = true → rs ≠ [] → False) →
      V3.semanticSearch outcome kb q k = V3.searchKnowledge kb q k) := by
  constructor
  · intro d rs h hres hsuc hne
    subst h
    have hlen : 0 < rs.length := List.length_pos.mpr hne
    simp [V3.semanticSearch, hres, hsuc, hlen]
  · intro hno
    cases outcome with
    | thrown => rfl
    | resp ok body =>
        cases ok with
        | false => rfl
        | true =>
            cases body with
            | error e => rfl
            | ok data =>
                cases hr : data.results with
                | none => simp [V3.semanticSearch, hr]
                | some rs0 =>
                    cases hs : data.success with
                    | false => simp [V3.semanticSearch, hr, hs]
                    | true =>
                        cases rs0 with
                        | nil => simp [V3.semanticSearch, hr, hs]
                        | cons r rest =>
                            exact (hno data (r :: rest) rfl hr hs
                              (List.cons_ne_nil r rest)).elim

/-- Witness for `semanticSearch_remote_or_fallback`: a successful remote
response returns the remote hits; a thrown fetch falls back to the local
search. -/
theorem semanticSearch_remote_or_fallback_witness :
    V3.semanticSearch
      (FetchOutcome.resp true (Except.ok ⟨true, some [remoteHit]⟩))
      [waterChunkV3] (str "water cycle") 5 = [remoteHit] ∧
    V3.semanticSearch FetchOutcome.thrown
      [waterChunkV3] (str "water cycle") 5 =
      V3.searchKnowledge [waterChunkV3] (str "water cycle") 5 := by
  constructor
  · exact (semanticSearch_remote_or_fallback
      (FetchOutcome.resp true (Except.ok ⟨true, some [remoteHit]⟩))
      [waterChunkV3] (str "water cycle") 5).1
      ⟨true, some [remoteHit]⟩ [remoteHit] rfl rfl rfl (by simp)
  · exact (semanticSearch_remote_or_fallback FetchOutcome.thrown
      [waterChunkV3] (str "water cycle") 5).2
      (fun d rs h _ _ _ => FetchOutcome.noConfusion h)

end Ilmify
